import Mathlib

/-!
Verification of the checkpoint/log-management subsystem (`Saver`/`Logger`)
of the Udacity-DeepRL repository (`Projects/Collaborate_Compete/`), as a
shallow embedding: file names are `List Char`, scalars are `ℚ`, the
filesystem and the user's interactive inputs are explicit arguments.
-/

set_option autoImplicit false

namespace DeepRL

/-! ### Saver.generate_savename (data_handling.py, lines 112-129)

`generate_savename` builds `base_name = "{prefix}_{timestamp}_v"`, lists the
save directory, keeps the entries whose name contains `base_name`, extracts
a version number from each with `re.search("_v(\\d+)")` (Python raises
`AttributeError` when the search fails, modelled by `Option.none`), and
returns `base_name` followed by the successor of the maximum version,
zero-padded to three digits (`"{:03d}"`). -/

/-- Boolean substring test on character lists: models Python `base_name in f`. -/
def listIsInfix (pat : List Char) : List Char → Bool
  | [] => pat.isEmpty
  | c :: cs => pat.isPrefixOf (c :: cs) || listIsInfix pat cs

/-- Numeric value of a list of decimal digit characters, models `int(...)`
on the digits captured by the regex group. -/
def digitsVal (ds : List Char) : ℕ :=
  ds.foldl (fun a c => 10 * a + (c.toNat - ('0').toNat)) 0

/-- Attempt to match the regex `_v(\d+)` anchored at the head of the list:
`_v` followed by a greedy non-empty run of digits. -/
def tryMatchV : List Char → Option ℕ
  | '_' :: 'v' :: rest =>
      let ds := rest.takeWhile Char.isDigit
      if ds.isEmpty then none else some (digitsVal ds)
  | _ => none

/-- `re.search("_v(\d+)", file)` followed by `int(...group(1))`: first
(leftmost) match of `_v<digits>`, greedy digits; `none` models a failed
search (on which the Python code would raise `AttributeError`). -/
def vSearch : List Char → Option ℕ
  | [] => none
  | c :: rest =>
      match tryMatchV (c :: rest) with
      | some n => some n
      | none => vSearch rest

/-- The directory entries whose name contains `base_name`
(`files = [f for f in files if base_name in f]`). -/
def matchingEntries (files : List (List Char)) (baseName : List Char) : List (List Char) :=
  files.filter (fun f => listIsInfix baseName f)

/-- The list comprehension
`[int(re.search("_v(\d+)", file).group(1)) for file in files]`; Python
raises at the first entry on which the regex search fails, modelled by
returning `none`. -/
def extractVersions : List (List Char) → Option (List ℕ)
  | [] => some []
  | f :: fs =>
      match vSearch f, extractVersions fs with
      | some v, some vs => some (v :: vs)
      | _, _ => none

/-- The version number selected by `generate_savename`:
`max(ver) + 1` over the matching entries, or `1` when none match. -/
def generate_ver (files : List (List Char)) (baseName : List Char) : Option ℕ :=
  let ms := matchingEntries files baseName
  if ms.isEmpty then some 1
  else (extractVersions ms).map (fun vs => vs.foldl max 0 + 1)

/-- Python `"{:03d}".format(n)` for a natural number. -/
def pad3 (n : ℕ) : List Char :=
  let ds := (toString n).data
  List.replicate (3 - ds.length) '0' ++ ds

/-- `Saver.generate_savename`: the returned `filename`
(`"{}{:03d}".format(base_name, ver)`), given the entries of the save
directory and the date-stamped base name `"{prefix}_{timestamp}_v"`. -/
def generate_savename (files : List (List Char)) (baseName : List Char) :
    Option (List Char) :=
  (generate_ver files baseName).map (fun v => baseName ++ pad3 v)

example : generate_savename [] "MAD4PG_20240101_v".data =
    some "MAD4PG_20240101_v001".data := by decide

example : generate_savename ["MAD4PG_20240101_v001".data] "MAD4PG_20240101_v".data =
    some "MAD4PG_20240101_v002".data := by decide

example : generate_ver ["MAD4PG_20240101_v003".data, "readme.txt".data]
    "MAD4PG_20240101_v".data = some 4 := by decide

/-! ### Logger._moving_avg (data_handling.py, lines 321-330)

```
window = np.ones(avg_across)/avg_across
data = np.pad(data, avg_across, mode="mean", stat_length=10)
curve = np.convolve(data, window, 'same')[avg_across:-avg_across]
```
Scalars are embedded as `ℚ`. `np.pad(..., mode="mean", stat_length=10)`
prepends `avg_across` copies of the mean of the first `min 10 n` samples and
appends `avg_across` copies of the mean of the last `min 10 n` samples.
`np.convolve(a, v, 'same')` is the centred slice, of length `max M N`,
of the full convolution (length `M + N - 1`), starting at index
`(min M N - 1) / 2`. -/

/-- Arithmetic mean of a list of rationals (numpy `mean`). -/
def listMean (l : List ℚ) : ℚ := l.sum / (l.length : ℚ)

/-- `np.pad(data, w, mode="mean", stat_length=10)`. -/
def padMean (data : List ℚ) (w : ℕ) : List ℚ :=
  List.replicate w (listMean (data.take 10)) ++ data ++
    List.replicate w (listMean (data.drop (data.length - 10)))

/-- `np.ones(w)/w`: the uniform boxcar kernel. -/
def uniformWindow (w : ℕ) : List ℚ :=
  List.replicate w (1 / (w : ℚ))

/-- Full discrete convolution (`np.convolve(a, v, 'full')`): entry `k` is
`∑ j, a[k-j] * v[j]` over the indices in range. -/
def convFull (a v : List ℚ) : List ℚ :=
  (List.range (a.length + v.length - 1)).map (fun k =>
    ∑ j ∈ Finset.range v.length,
      if j ≤ k ∧ k - j < a.length then a.getD (k - j) 0 * v.getD j 0 else 0)

/-- `np.convolve(a, v, 'same')`: the centred `max M N` entries of the full
convolution. -/
def convSame (a v : List ℚ) : List ℚ :=
  ((convFull a v).drop ((min a.length v.length - 1) / 2)).take
    (max a.length v.length)

/-- Python slice `l[w:-w]` (for `1 ≤ w`). -/
def trimEnds (l : List ℚ) (w : ℕ) : List ℚ :=
  (l.drop w).take (l.length - w - w)

/-- `Logger._moving_avg(data, avg_across)`: mean-pad by `w` on both ends,
boxcar-convolve in `'same'` mode, slice off `w` entries at each end. -/
def moving_avg (data : List ℚ) (w : ℕ) : List ℚ :=
  trimEnds (convSame (padMean data w) (uniformWindow w)) w


/-! ### The early-cutoff condition in train() (main.py, lines 82-94)

The inner episode loop breaks on `if np.any(dones): break` and then on
`if np.any(logger.rewards) > 1: break`.  `np.any` returns a boolean, which
Python compares to the integer `1` (`True` is `1`, `False` is `0`). -/

/-- `np.any` on the per-agent reward vector: true iff some entry is nonzero. -/
def npAnyQ (l : List ℚ) : Bool := l.any (fun x => x ≠ 0)

/-- `np.any` on the done-flag vector. -/
def npAnyB (l : List Bool) : Bool := l.any id

/-- Python `b > 1` where `b` is a boolean: `True`/`False` coerce to `1`/`0`. -/
def pyBoolGtOne (b : Bool) : Bool := decide ((if b then (1 : ℤ) else 0) > 1)

/-- The cutoff condition `np.any(logger.rewards) > 1` of `train()`. -/
def cutoff_cond (rewards : List ℚ) : Bool := pyBoolGtOne (npAnyQ rewards)

/-- One pass of the two break checks of the inner loop of `train()`:
the episode ends after a timestep iff this is true. -/
def episode_break (dones : List Bool) (rewards : List ℚ) : Bool :=
  npAnyB dones || cutoff_cond rewards

/-! ### Saver._get_files / _get_agent_file (data_handling.py, lines 49-89)

`_get_files` walks the save directory recursively (`os.walk`), keeps files
whose name ends in `".agent"`, and sorts them by last-modified time.
`_get_agent_file` asserts, in resume or eval mode, that this list is
non-empty (`assert len(files) > 0, no_files_found`). The recursive walk is
given as an explicit list of (path, mtime) records. -/

/-- A file found by the recursive walk of the save directory. -/
structure FSFile where
  path : List Char
  mtime : ℕ
deriving DecidableEq

/-- Python `file.endswith(".agent")`. -/
def endsWithAgent (p : List Char) : Bool :=
  (".agent").data.isSuffixOf p

/-- Stable insertion of a file into an mtime-ascending list (a file is
placed after every file whose mtime is not larger). -/
def insertByMtime (f : FSFile) : List FSFile → List FSFile
  | [] => [f]
  | g :: gs => if g.mtime ≤ f.mtime then g :: insertByMtime f gs else f :: g :: gs

/-- `sorted(file_list, key=lambda x: os.path.getmtime(x))`. -/
def sortByMtime : List FSFile → List FSFile
  | [] => []
  | f :: fs => insertByMtime f (sortByMtime fs)

/-- `Saver._get_files(save_dir)`: the `.agent` files of the recursive walk,
sorted by last-modified time (ascending, most recent last). -/
def get_files (walk : List FSFile) : List FSFile :=
  sortByMtime (walk.filter (fun f => endsWithAgent f.path))

/-- The assertion message `"Could not find any files in: {}".format(args.save_dir)`. -/
def noFilesMsg (saveDir : List Char) : List Char :=
  ("Could not find any files in: ").data ++ saveDir

/-- The load-file decision of `Saver._get_agent_file`: in resume or eval
mode it returns the sorted `.agent` file list when non-empty and raises an
`AssertionError` (modelled as `Except.error` with the assertion message)
when empty; otherwise it returns `none`, i.e. Python `False` (no loading). -/
def get_agent_file_check (resume evalMode : Bool) (saveDir : List Char)
    (walk : List FSFile) : Except (List Char) (Option (List FSFile)) :=
  if resume || evalMode then
    let files := get_files walk
    if files.length > 0 then .ok (some files) else .error (noFilesMsg saveDir)
  else .ok none

/-! ### Saver._get_filepath (data_handling.py, lines 91-110)

The interactive prompt for one agent: a quit sentinel raises
`KeyboardInterrupt(user_quit_message)`; otherwise the code runs
`file_index = len(files) - int(save_file)`, `assert file_index >= 0`,
`return files[file_index]` inside `try`, and its bare `except` branch
prints an INVALID notice and executes `return _get_filepath(files)` — but
no global `_get_filepath` exists (the method is only reachable as
`self._get_filepath`, and it also needs an `idx` argument), so that line
raises `NameError`, aborting instead of re-prompting. -/

/-- The observable outcome of one `Saver._get_filepath` call. -/
inductive PromptResult where
  | selected (f : FSFile)
  | interrupt (msg : List Char)
  | nameError
deriving DecidableEq

/-- `"User quit process before loading a file."`. -/
def userQuitMsg : List Char := ("User quit process before loading a file.").data

/-- Python `str.lower` on ASCII. -/
def pyLower (s : List Char) : List Char :=
  s.map (fun c => if ('A') ≤ c ∧ c ≤ ('Z') then Char.ofNat (c.toNat + 32) else c)

/-- Python `int(s)` on an optionally signed run of decimal digits
(`ValueError`, modelled as `none`, otherwise). -/
def pyInt (s : List Char) : Option ℤ :=
  let digitsOf : List Char → Option ℤ := fun ds =>
    if ds ≠ [] ∧ ds.all Char.isDigit then some (digitsVal ds) else none
  match s with
  | '-' :: ds => (digitsOf ds).map (fun v => -v)
  | '+' :: ds => digitsOf ds
  | ds => digitsOf ds

/-- `Saver._get_filepath(files, idx)` applied to one line of user input. -/
def get_filepath (files : List FSFile) (input : List Char) : PromptResult :=
  if pyLower input = ("q").data ∨ pyLower input = ("quit").data then
    .interrupt userQuitMsg
  else
    match pyInt input with
    | some k =>
        let fi : ℤ := (files.length : ℤ) - k
        if h : 0 ≤ fi ∧ fi.toNat < files.length then
          .selected (files.get ⟨fi.toNat, h.2⟩)
        else .nameError
    | none => .nameError

/-! ### Logger reward accumulation (data_handling.py, lines 245-294, 621-626)

`Logger.log` runs `self.rewards += rewards` (numpy elementwise addition),
`Logger._update_score` runs `score = self.rewards.max()`, and
`Logger._reset_rewards` runs `self.rewards = np.zeros(self.agent_count)`.
`Logger.step` calls `_update_score` and then `_reset_rewards`. -/

/-- `self.rewards = np.zeros(self.agent_count)`. -/
def reset_rewards (agentCount : ℕ) : List ℚ := List.replicate agentCount 0

/-- `self.rewards += rewards` (numpy elementwise `+` on equal-length vectors). -/
def log_rewards (acc rewards : List ℚ) : List ℚ := List.zipWith (· + ·) acc rewards

/-- numpy `.max()` on a non-empty vector (numpy raises on an empty one;
the `[]` case is arbitrary). -/
def npMax : List ℚ → ℚ
  | [] => 0
  | x :: xs => xs.foldl max x

/-- `Logger._update_score`: `score = self.rewards.max()`. -/
def update_score (acc : List ℚ) : ℚ := npMax acc

/-- The reward accumulator at the end of an episode that starts from a
reset accumulator and logs the given per-timestep reward vectors in order. -/
def episode_acc (agentCount : ℕ) (steps : List (List ℚ)) : List ℚ :=
  steps.foldl log_rewards (reset_rewards agentCount)

/-- `Logger.step`'s effect on the score/accumulator pair: record the max
component as the episode score, then reset the accumulator. -/
def logger_step (acc : List ℚ) (agentCount : ℕ) : ℚ × List ℚ :=
  (update_score acc, reset_rewards agentCount)

/-- The sum over timesteps of agent `i`'s component of the reward vectors. -/
def colSum (steps : List (List ℚ)) (i : ℕ) : ℚ :=
  (steps.map (fun s => s.getD i 0)).sum

/-! ### Score log round trip (data_handling.py, lines 332-339, 613-619)

`Logger._write_scores` appends `str(self.latest_score) + '\n'` to the
scores file; `Logger.plot_logs` reads it back with
`[float(score) for score in f.read().splitlines()]`. The file is a
`List Char`; the rendered decimal strings are produced by an arbitrary
encoding `enc` with decoding `dec`, and `float(str(x)) == x` (a guarantee
of the Python runtime) enters as a hypothesis on `enc`/`dec`. -/

/-- Python `str.splitlines` restricted to `'\n'` separators (the only line
break this program writes). -/
def splitlines : List Char → List (List Char)
  | [] => []
  | c :: cs =>
      if c = '\n' then [] :: splitlines cs
      else
        match splitlines cs with
        | [] => [[c]]
        | l :: ls => (c :: l) :: ls

/-- One `Logger._write_scores` call: append the rendered score and a
newline to the scores file. -/
def write_score (file tok : List Char) : List Char := file ++ tok ++ ['\n']

/-- The scores file after a training run that appends the given rendered
scores in order to an initially empty file. -/
def write_scores_run (toks : List (List Char)) : List Char :=
  toks.foldl write_score []

/-- The read-back of `plot_logs`: split the file into lines and parse each
line (`float(...)` raising, modelled by `Option`). -/
def read_scores {α : Type} (dec : List Char → Option α) (file : List Char) :
    List (Option α) :=
  (splitlines file).map dec

/-! ### Helper lemmas -/

theorem getD_replicate_of_lt {α : Type} (m : ℕ) (a d : α) :
    ∀ i : ℕ, i < m → (List.replicate m a).getD i d = a := by
  induction m with
  | zero => intro i hi; omega
  | succ m ih =>
    intro i hi
    cases i with
    | zero => rfl
    | succ i => exact ih i (by omega)

theorem listMean_replicate (m : ℕ) (c : ℚ) (hm : 1 ≤ m) :
    listMean (List.replicate m c) = c := by
  have hmQ : ((m : ℚ)) ≠ 0 := Nat.cast_ne_zero.mpr (by omega)
  simp only [listMean, List.sum_replicate, List.length_replicate, nsmul_eq_mul]
  rw [mul_comm, mul_div_assoc, div_self hmQ, mul_one]

theorem padMean_replicate (n w : ℕ) (c : ℚ) (hn : 1 ≤ n) :
    padMean (List.replicate n c) w = List.replicate (w + n + w) c := by
  unfold padMean
  rw [List.take_replicate, List.drop_replicate, List.length_replicate,
    listMean_replicate _ _ (by omega), listMean_replicate _ _ (by omega)]
  rw [show w + n + w = w + (n + w) by omega, List.replicate_add, List.replicate_add,
    List.append_assoc]

theorem convSame_trim_replicate (n w : ℕ) (c : ℚ) (hw : 1 ≤ w) (hn : 1 ≤ n) :
    trimEnds (convSame (List.replicate (w + n + w) c) (uniformWindow w)) w =
      List.replicate n c := by
  have hwQ : ((w : ℚ)) ≠ 0 := Nat.cast_ne_zero.mpr (by omega)
  apply List.ext_getElem
  · simp only [trimEnds, convSame, convFull, uniformWindow, List.length_take,
      List.length_drop, List.length_map, List.length_range, List.length_replicate]
    omega
  · intro i h1 h2
    simp only [List.length_replicate] at h2
    simp only [trimEnds, convSame, convFull, uniformWindow, List.getElem_take,
      List.getElem_drop, List.getElem_map, List.getElem_range,
      List.getElem_replicate, List.length_replicate]
    have hterm : ∀ j ∈ Finset.range w,
        (if j ≤ (min (w + n + w) w - 1) / 2 + (w + i) ∧
            (min (w + n + w) w - 1) / 2 + (w + i) - j < w + n + w then
          (List.replicate (w + n + w) c).getD
            ((min (w + n + w) w - 1) / 2 + (w + i) - j) 0 *
            (List.replicate w (1 / (w : ℚ))).getD j 0
        else 0) = c * (1 / (w : ℚ)) := by
      intro j hj
      have hj' : j < w := Finset.mem_range.mp hj
      rw [if_pos (by omega),
        getD_replicate_of_lt _ _ _ _ (by omega),
        getD_replicate_of_lt _ _ _ _ (by omega)]
    rw [Finset.sum_congr rfl hterm, Finset.sum_const, Finset.card_range, nsmul_eq_mul]
    rw [mul_one_div, mul_comm, div_mul_cancel₀ _ hwQ]

/-! ### Theorems for the claims -/

/-- C4: `Logger._moving_avg` applied to a constant-valued non-empty sequence,
with any window size `w ≥ 1`, returns a sequence every element of which is
that same constant (indeed the constant sequence of the same length). -/
theorem moving_avg_constant (data : List ℚ) (c : ℚ) (w : ℕ)
    (hw : 1 ≤ w) (hd : data ≠ []) (hc : ∀ x ∈ data, x = c) :
    moving_avg data w = List.replicate data.length c := by
  have hn : 1 ≤ data.length := List.length_pos.mpr hd
  have hdata : data = List.replicate data.length c := List.eq_replicate_length.mpr hc
  calc moving_avg data w
      = trimEnds (convSame (padMean (List.replicate data.length c) w)
          (uniformWindow w)) w := by rw [moving_avg, ← hdata]
    _ = trimEnds (convSame (List.replicate (w + data.length + w) c)
          (uniformWindow w)) w := by rw [padMean_replicate _ _ _ hn]
    _ = List.replicate data.length c := convSame_trim_replicate _ _ _ hw hn

/-- C4 witness: the theorem applied to the constant sequence `[5, 5, 5]`
with window size 2. -/
theorem moving_avg_constant_witness :
    moving_avg [5, 5, 5] 2 = List.replicate ([5, 5, 5] : List ℚ).length 5 :=
  moving_avg_constant [5, 5, 5] 5 2 (by decide) (by simp) (by simp)

/-- C5: `Logger._moving_avg` pads with the mean of at most 10 boundary
samples at each end, boxcar-convolves, and returns a sequence whose length
equals the length of the input, for every non-empty input and `w ≥ 1`. -/
theorem moving_avg_length (data : List ℚ) (w : ℕ) (hw : 1 ≤ w) (hd : data ≠ []) :
    (moving_avg data w).length = data.length ∧
    (data.take 10).length ≤ 10 ∧ (data.drop (data.length - 10)).length ≤ 10 := by
  have hn : 1 ≤ data.length := List.length_pos.mpr hd
  refine ⟨?_, ?_, ?_⟩
  · simp only [moving_avg, trimEnds, convSame, convFull, padMean, uniformWindow,
      List.length_take, List.length_drop, List.length_map, List.length_range,
      List.length_append, List.length_replicate]
    omega
  · simp only [List.length_take]; omega
  · simp only [List.length_drop]; omega

/-- C5 witness: the theorem applied to the four-element sequence
`[1, 2, 3, 4]` with window size 3. -/
theorem moving_avg_length_witness :
    (moving_avg [1, 2, 3, 4] 3).length = ([1, 2, 3, 4] : List ℚ).length ∧
    (([1, 2, 3, 4] : List ℚ).take 10).length ≤ 10 ∧
    (([1, 2, 3, 4] : List ℚ).drop (([1, 2, 3, 4] : List ℚ).length - 10)).length ≤ 10 :=
  moving_avg_length [1, 2, 3, 4] 3 (by decide) (by simp)

/-- C3: the cutoff condition `np.any(logger.rewards) > 1` of `train()`
compares a boolean to the integer 1 and is false for every rewards vector,
so the inner loop of `train()` breaks exactly when the environment reports
a done flag. -/
theorem cutoff_cond_always_false (rewards : List ℚ) (dones : List Bool) :
    cutoff_cond rewards = false ∧ episode_break dones rewards = npAnyB dones := by
  have h : cutoff_cond rewards = false := by
    unfold cutoff_cond pyBoolGtOne
    cases npAnyQ rewards <;> rfl
  exact ⟨h, by rw [episode_break, h, Bool.or_false]⟩

/-- C2: on an empty save directory the date-stamped prefix
`MAD4PG_20240101` yields the directory name `MAD4PG_20240101_v001`; a
second invocation against a directory containing that entry yields
`MAD4PG_20240101_v002`, which is distinct from every existing entry. -/
theorem savename_example_first_two_versions :
    generate_savename [] "MAD4PG_20240101_v".data =
      some "MAD4PG_20240101_v001".data ∧
    generate_savename ["MAD4PG_20240101_v001".data] "MAD4PG_20240101_v".data =
      some "MAD4PG_20240101_v002".data ∧
    "MAD4PG_20240101_v002".data ∉ ["MAD4PG_20240101_v001".data] := by decide

theorem foldl_max_init_le (l : List ℕ) (a : ℕ) : a ≤ l.foldl max a := by
  induction l generalizing a with
  | nil => exact le_refl a
  | cons x xs ih => exact le_trans (Nat.le_max_left a x) (ih (max a x))

theorem le_foldl_max (l : List ℕ) (a x : ℕ) (hx : x ∈ l) : x ≤ l.foldl max a := by
  induction l generalizing a with
  | nil => cases hx
  | cons y ys ih =>
    rcases List.mem_cons.mp hx with h | h
    · subst h; exact le_trans (Nat.le_max_right a x) (foldl_max_init_le ys _)
    · exact ih _ h

theorem foldl_max_mem (l : List ℕ) (a : ℕ) : l.foldl max a = a ∨ l.foldl max a ∈ l := by
  induction l generalizing a with
  | nil => exact Or.inl rfl
  | cons x xs ih =>
    have hfold : (x :: xs).foldl max a = xs.foldl max (max a x) := rfl
    rcases ih (max a x) with h | h
    · rw [hfold, h]
      rcases Nat.le_total a x with hax | hxa
      · exact Or.inr (by rw [Nat.max_eq_right hax]; exact List.mem_cons_self x xs)
      · exact Or.inl (Nat.max_eq_left hxa)
    · exact Or.inr (by rw [hfold]; exact List.mem_cons_of_mem x h)

theorem foldl_max_zero_mem (l : List ℕ) (h : l ≠ []) : l.foldl max 0 ∈ l := by
  rcases foldl_max_mem l 0 with h0 | hm
  · cases l with
    | nil => exact absurd rfl h
    | cons x xs =>
      have hx : x ≤ (x :: xs).foldl max 0 :=
        le_foldl_max _ _ _ (List.mem_cons_self x xs)
      rw [h0] at hx
      rw [h0, ← Nat.le_zero.mp hx]
      exact List.mem_cons_self x xs
  · exact hm

theorem extractVersions_total (l : List (List Char))
    (h : ∀ f ∈ l, (vSearch f).isSome) : ∃ vs, extractVersions l = some vs := by
  induction l with
  | nil => exact ⟨[], rfl⟩
  | cons f fs ih =>
    obtain ⟨vs, hvs⟩ := ih (fun g hg => h g (List.mem_cons_of_mem f hg))
    obtain ⟨v, hv⟩ := Option.isSome_iff_exists.mp (h f (List.mem_cons_self f fs))
    exact ⟨v :: vs, by simp only [extractVersions, hv, hvs]⟩

theorem extractVersions_sound (l : List (List Char)) (vs : List ℕ)
    (h : extractVersions l = some vs) :
    (∀ v ∈ vs, ∃ f ∈ l, vSearch f = some v) ∧
    (∀ f ∈ l, ∃ v ∈ vs, vSearch f = some v) := by
  induction l generalizing vs with
  | nil =>
    simp only [extractVersions, Option.some.injEq] at h
    subst h
    exact ⟨fun v hv => absurd hv (List.not_mem_nil v),
      fun f hf => absurd hf (List.not_mem_nil f)⟩
  | cons f fs ih =>
    cases hf : vSearch f with
    | none =>
      simp only [extractVersions, hf] at h
      exact Option.noConfusion h
    | some v =>
      cases hfs : extractVersions fs with
      | none =>
        simp only [extractVersions, hf, hfs] at h
        exact Option.noConfusion h
      | some ws =>
        simp only [extractVersions, hf, hfs, Option.some.injEq] at h
        subst h
        obtain ⟨ha, hb⟩ := ih ws hfs
        constructor
        · intro u hu
          rcases List.mem_cons.mp hu with h1 | h1
          · exact ⟨f, List.mem_cons_self f fs, by rw [hf, h1]⟩
          · obtain ⟨g, hg, hgv⟩ := ha u h1
            exact ⟨g, List.mem_cons_of_mem f hg, hgv⟩
        · intro g hg
          rcases List.mem_cons.mp hg with h1 | h1
          · subst h1; exact ⟨v, List.mem_cons_self v ws, hf⟩
          · obtain ⟨u, hu, huv⟩ := hb g h1
            exact ⟨u, List.mem_cons_of_mem v hu, huv⟩

/-- C1: whenever every directory entry containing the date-stamped base
prefix carries an extractable `_v<digits>` version, `generate_savename`
selects a version strictly greater than every extracted one — the maximum
found plus one — and version 1 when no entry contains the prefix, and
embeds that version in the returned name. -/
theorem savename_version_strictly_greater (files : List (List Char))
    (baseName : List Char)
    (hall : ∀ f ∈ matchingEntries files baseName, (vSearch f).isSome) :
    ∃ ver : ℕ,
      generate_ver files baseName = some ver ∧
      generate_savename files baseName = some (baseName ++ pad3 ver) ∧
      (∀ f ∈ matchingEntries files baseName, ∀ v, vSearch f = some v → v < ver) ∧
      (matchingEntries files baseName = [] → ver = 1) ∧
      (matchingEntries files baseName ≠ [] →
        ∃ f ∈ matchingEntries files baseName, vSearch f = some (ver - 1)) := by
  by_cases hms : matchingEntries files baseName = []
  · refine ⟨1, ?_, ?_, ?_, fun _ => rfl, fun hne => absurd hms hne⟩
    · simp [generate_ver, hms]
    · simp [generate_savename, generate_ver, hms]
    · intro f hf
      rw [hms] at hf
      exact absurd hf (List.not_mem_nil f)
  · obtain ⟨vs, hvs⟩ := extractVersions_total _ hall
    obtain ⟨ha, hb⟩ := extractVersions_sound _ vs hvs
    have hvsne : vs ≠ [] := by
      obtain ⟨f, hf⟩ : ∃ f, f ∈ matchingEntries files baseName := by
        cases hmm : matchingEntries files baseName with
        | nil => exact absurd hmm hms
        | cons g gs => exact ⟨g, List.mem_cons_self g gs⟩
      obtain ⟨v, hv, _⟩ := hb f hf
      intro hnil
      rw [hnil] at hv
      exact absurd hv (List.not_mem_nil v)
    have hgen : generate_ver files baseName = some (vs.foldl max 0 + 1) := by
      simp [generate_ver, List.isEmpty_iff, hms, hvs]
    refine ⟨vs.foldl max 0 + 1, hgen, ?_, ?_, fun h => absurd h hms, fun _ => ?_⟩
    · simp [generate_savename, hgen]
    · intro f hf v hv
      obtain ⟨u, hu, huv⟩ := hb f hf
      rw [huv] at hv
      injection hv with h
      subst h
      exact Nat.lt_succ_of_le (le_foldl_max vs 0 u hu)
    · obtain ⟨f, hf, hfv⟩ := ha _ (foldl_max_zero_mem vs hvsne)
      exact ⟨f, hf, by rw [Nat.add_sub_cancel]; exact hfv⟩

/-- C1 witness: a directory holding one matching entry at version 3 and one
non-matching entry; the hypothesis and the applied theorem at that input. -/
theorem savename_version_strictly_greater_witness :
    (∀ f ∈ matchingEntries ["MAD4PG_20240101_v003".data, "readme.txt".data]
        "MAD4PG_20240101_v".data, (vSearch f).isSome) ∧
    (∃ ver : ℕ,
      generate_ver ["MAD4PG_20240101_v003".data, "readme.txt".data]
        "MAD4PG_20240101_v".data = some ver ∧
      generate_savename ["MAD4PG_20240101_v003".data, "readme.txt".data]
        "MAD4PG_20240101_v".data = some ("MAD4PG_20240101_v".data ++ pad3 ver) ∧
      (∀ f ∈ matchingEntries ["MAD4PG_20240101_v003".data, "readme.txt".data]
        "MAD4PG_20240101_v".data, ∀ v, vSearch f = some v → v < ver) ∧
      (matchingEntries ["MAD4PG_20240101_v003".data, "readme.txt".data]
        "MAD4PG_20240101_v".data = [] → ver = 1) ∧
      (matchingEntries ["MAD4PG_20240101_v003".data, "readme.txt".data]
        "MAD4PG_20240101_v".data ≠ [] →
        ∃ f ∈ matchingEntries ["MAD4PG_20240101_v003".data, "readme.txt".data]
          "MAD4PG_20240101_v".data, vSearch f = some (ver - 1))) :=
  ⟨by decide, savename_version_strictly_greater _ _ (by decide)⟩

theorem splitlines_append (line rest : List Char) (h : ('\n') ∉ line) :
    splitlines (line ++ '\n' :: rest) = line :: splitlines rest := by
  induction line with
  | nil => simp [splitlines]
  | cons c cs ih =>
    have hc : c ≠ '\n' := fun hh => h (hh ▸ List.mem_cons_self c cs)
    have hcs : ('\n') ∉ cs := fun hh => h (List.mem_cons_of_mem c hh)
    rw [List.cons_append, splitlines, if_neg hc, ih hcs]

theorem write_scores_run_eq (toks : List (List Char)) :
    write_scores_run toks = (toks.map (fun t => t ++ ['\n'])).flatten := by
  suffices h : ∀ file, toks.foldl write_score file =
      file ++ (toks.map (fun t => t ++ ['\n'])).flatten by
    simpa using h []
  induction toks with
  | nil => intro file; simp [write_scores_run]
  | cons t ts ih =>
    intro file
    rw [List.foldl_cons, ih (write_score file t)]
    simp [write_score, List.append_assoc]

theorem splitlines_flatten_lines (lines : List (List Char))
    (h : ∀ l ∈ lines, ('\n') ∉ l) :
    splitlines ((lines.map (fun t => t ++ ['\n'])).flatten) = lines := by
  induction lines with
  | nil => rfl
  | cons t ts ih =>
    rw [List.map_cons, List.flatten_cons, List.append_assoc, List.singleton_append,
      splitlines_append t _ (h t (List.mem_cons_self t ts)),
      ih (fun l hl => h l (List.mem_cons_of_mem t hl))]

/-- C6: writing N scores with `Logger._write_scores` (each rendered score
followed by a newline, appended to the file) and reading the file back as
`plot_logs` does (split on newlines, parse each line) yields the same N
values in the same order, for every encoding whose rendered strings are
newline-free and parse back to the original value (Python guarantees
`float(str(x)) == x`). -/
theorem scores_roundtrip {α : Type} (enc : α → List Char)
    (dec : List Char → Option α) (scores : List α)
    (hnl : ∀ s ∈ scores, ('\n') ∉ enc s)
    (hdec : ∀ s ∈ scores, dec (enc s) = some s) :
    read_scores dec (write_scores_run (scores.map enc)) = scores.map some := by
  rw [read_scores, write_scores_run_eq, splitlines_flatten_lines]
  · rw [List.map_map]
    exact List.map_congr_left (fun s hs => hdec s hs)
  · intro l hl
    obtain ⟨s, hs, rfl⟩ := List.mem_map.mp hl
    exact hnl s hs

/-- C6 witness: the round trip on the two scores 1 and 23, rendered with
`toString` and parsed with a decimal-digit parser. -/
theorem scores_roundtrip_witness :
    (∀ s ∈ [(1 : ℕ), 23], ('\n') ∉ (toString s).data) ∧
    (∀ s ∈ [(1 : ℕ), 23],
      (fun cs => if cs ≠ [] ∧ cs.all Char.isDigit then some (digitsVal cs) else none)
        ((toString s).data) = some s) ∧
    read_scores
      (fun cs => if cs ≠ [] ∧ cs.all Char.isDigit then some (digitsVal cs) else none)
      (write_scores_run ([(1 : ℕ), 23].map (fun s => (toString s).data))) =
      [(1 : ℕ), 23].map some :=
  ⟨by decide, by decide,
    scores_roundtrip (fun s => (toString s).data)
      (fun cs => if cs ≠ [] ∧ cs.all Char.isDigit then some (digitsVal cs) else none)
      [1, 23] (by decide) (by decide)⟩

theorem length_insertByMtime (f : FSFile) (l : List FSFile) :
    (insertByMtime f l).length = l.length + 1 := by
  induction l with
  | nil => rfl
  | cons g gs ih =>
    rw [insertByMtime]
    split
    · simp [ih]
    · rfl

theorem length_sortByMtime (l : List FSFile) : (sortByMtime l).length = l.length := by
  induction l with
  | nil => rfl
  | cons f fs ih =>
    rw [sortByMtime, length_insertByMtime, ih]
    exact (List.length_cons f fs).symm

/-- C7: in resume or eval mode, when the recursive walk of the save
directory holds no file ending in `.agent`, `Saver._get_agent_file` fails
with the assertion message naming that directory; when at least one such
file exists, the assertion passes and a non-empty file list is returned. -/
theorem missing_agent_files_assertion (resume evalMode : Bool)
    (saveDir : List Char) (walk : List FSFile)
    (hmode : (resume || evalMode) = true) :
    (walk.filter (fun f => endsWithAgent f.path) = [] →
      get_agent_file_check resume evalMode saveDir walk =
        .error (noFilesMsg saveDir)) ∧
    (walk.filter (fun f => endsWithAgent f.path) ≠ [] →
      ∃ fs, get_agent_file_check resume evalMode saveDir walk = .ok (some fs) ∧
        fs ≠ []) := by
  constructor
  · intro hempty
    have hfiles : get_files walk = [] := by rw [get_files, hempty]; rfl
    simp [get_agent_file_check, hmode, hfiles]
  · intro hne
    have hlen : (get_files walk).length > 0 := by
      rw [get_files, length_sortByMtime]
      exact List.length_pos.mpr hne
    exact ⟨get_files walk, by simp [get_agent_file_check, hmode, hlen],
      List.length_pos.mp hlen⟩

/-- C7 witness: resume mode against a walk containing no `.agent` file
(in fact empty), and the applied theorem. -/
theorem missing_agent_files_assertion_witness :
    ((true || false) = true) ∧
    ((([] : List FSFile).filter (fun f => endsWithAgent f.path) = [] →
      get_agent_file_check true false ("saves").data [] =
        .error (noFilesMsg ("saves").data)) ∧
    (([] : List FSFile).filter (fun f => endsWithAgent f.path) ≠ [] →
      ∃ fs, get_agent_file_check true false ("saves").data [] = .ok (some fs) ∧
        fs ≠ [])) :=
  ⟨by decide, missing_agent_files_assertion true false ("saves").data [] (by decide)⟩

/-- C8: whenever the user's input lowercases to the sentinel `q` or `quit`,
`Saver._get_filepath` raises `KeyboardInterrupt` with the user-quit
message, and no file is selected. -/
theorem quit_sentinel_interrupts (files : List FSFile) (input : List Char)
    (h : pyLower input = ("q").data ∨ pyLower input = ("quit").data) :
    get_filepath files input = .interrupt userQuitMsg := by
  rw [get_filepath, if_pos h]

/-- C8 witness: the mixed-case input `Quit` against a one-file list. -/
theorem quit_sentinel_interrupts_witness :
    (pyLower ("Quit").data = ("q").data ∨ pyLower ("Quit").data = ("quit").data) ∧
    get_filepath [⟨("saves/a.agent").data, 1⟩] ("Quit").data =
      .interrupt userQuitMsg :=
  ⟨by decide, quit_sentinel_interrupts [⟨("saves/a.agent").data, 1⟩]
    ("Quit").data (by decide)⟩

/-- C9 (evaluation at the failing input): with one listed file and the
invalid, non-quit selection `x`, `Saver._get_filepath` reaches its bare
`except` branch, whose `return _get_filepath(files)` raises `NameError`
(no global of that name exists, and the method also requires an `idx`
argument), so startup aborts instead of re-prompting. A valid integer
selection `k` does return the `k`-th most recently modified file of the
mtime-sorted list. -/
theorem invalid_selection_raises_nameError :
    get_filepath
      [⟨("saves/MAD4PG_20240101_v001_eps0100_ckpt_agent1.agent").data, 10⟩]
      ("x").data = .nameError ∧
    get_filepath [⟨("saves/old.agent").data, 3⟩, ⟨("saves/new.agent").data, 7⟩]
      ("1").data = .selected ⟨("saves/new.agent").data, 7⟩ ∧
    get_filepath [⟨("saves/old.agent").data, 3⟩, ⟨("saves/new.agent").data, 7⟩]
      ("2").data = .selected ⟨("saves/old.agent").data, 3⟩ := by decide

theorem range_map_getD (l : List ℚ) :
    (List.range l.length).map (fun i => l.getD i 0) = l := by
  apply List.ext_getElem
  · simp
  · intro i h1 h2
    simp only [List.getElem_map, List.getElem_range]
    exact List.getD_eq_getElem _ _ h2

theorem foldl_log_rewards (steps : List (List ℚ)) :
    ∀ acc : List ℚ, (∀ s ∈ steps, s.length = acc.length) →
      steps.foldl log_rewards acc =
        (List.range acc.length).map (fun i => acc.getD i 0 + colSum steps i) := by
  induction steps with
  | nil =>
    intro acc _
    simp only [List.foldl_nil, colSum, List.map_nil, List.sum_nil, add_zero]
    exact (range_map_getD acc).symm
  | cons s rest ih =>
    intro acc hlen
    have hs : s.length = acc.length := hlen s (List.mem_cons_self s rest)
    have hzip : (log_rewards acc s).length = acc.length := by
      simp [log_rewards, List.length_zipWith, hs]
    have ih' := ih (log_rewards acc s)
      (fun t ht => by rw [hzip]; exact hlen t (List.mem_cons_of_mem s ht))
    rw [List.foldl_cons, ih', hzip]
    apply List.map_congr_left
    intro i hi
    have hi' : i < acc.length := List.mem_range.mp hi
    have h1 : i < (log_rewards acc s).length := by rw [hzip]; exact hi'
    have hiS : i < s.length := by rw [hs]; exact hi'
    have hzipD : (log_rewards acc s).getD i 0 = acc.getD i 0 + s.getD i 0 := by
      rw [List.getD_eq_getElem _ _ h1]
      simp only [log_rewards]
      rw [List.getElem_zipWith, List.getD_eq_getElem _ _ hi',
        List.getD_eq_getElem _ _ hiS]
    rw [hzipD]
    have hcol : colSum (s :: rest) i = s.getD i 0 + colSum rest i := by
      simp [colSum]
    rw [hcol, add_assoc]

/-- C10: the episode score recorded by `Logger` — accumulate each
timestep's reward vector elementwise from a zero accumulator, then take the
maximum component — equals the maximum over agents of that agent's summed
per-timestep rewards, and `Logger.step` leaves the accumulator reset to all
zeros for the next episode. -/
theorem episode_score_max_of_sums (n : ℕ) (steps : List (List ℚ))
    (_hn : 1 ≤ n) (hlen : ∀ s ∈ steps, s.length = n) :
    update_score (episode_acc n steps) =
      npMax ((List.range n).map (fun i => colSum steps i)) ∧
    (logger_step (episode_acc n steps) n).2 = List.replicate n 0 := by
  have h0 : (reset_rewards n).length = n := by simp [reset_rewards]
  have hacc : episode_acc n steps =
      (List.range n).map (fun i => colSum steps i) := by
    have hfold := foldl_log_rewards steps (reset_rewards n)
      (fun s hs => by rw [h0]; exact hlen s hs)
    rw [episode_acc, hfold, h0]
    apply List.map_congr_left
    intro i hi
    have : (reset_rewards n).getD i 0 = 0 :=
      getD_replicate_of_lt n 0 0 i (List.mem_range.mp hi)
    rw [this, zero_add]
  exact ⟨by rw [update_score, hacc], rfl⟩

/-- C10 witness: two agents over a two-timestep episode with rewards
`[1, 2]` then `[3, 0]`. -/
theorem episode_score_max_of_sums_witness :
    update_score (episode_acc 2 [[1, 2], [3, 0]]) =
      npMax ((List.range 2).map (fun i => colSum [[1, 2], [3, 0]] i)) ∧
    (logger_step (episode_acc 2 [[1, 2], [3, 0]]) 2).2 = List.replicate 2 0 :=
  episode_score_max_of_sums 2 [[1, 2], [3, 0]] (by decide) (by simp)

end DeepRL
